import Mathlib

/-!
# Verification of `sort_n_smallest.cpp`

Shallow embedding of the two selection algorithms of
`src/algorithm/sort_n_smallest.cpp`:

* `sort_nth_smallest_quickselect` — Lomuto-partition quickselect on a working
  copy of the input vector;
* `sort_nth_smallest_heap` — bounded max-heap selection;
* `sort_nth_smallest` — the facade, delegating to quickselect.

The working `vector<int>` is modelled as a `List Int`; `arr[i]` reads are
`getv` (out-of-range reads default to `0`; every read in a reachable state is
proved in bounds), writes are `List.set` (no-ops out of range, likewise never
reached out of range).  The C++ `int` loop indices `low`, `high`, `i`, `k` of
quickselect are modelled as `Int` exactly as in the source; indices that the
source only ever uses as non-negative array positions are modelled as `Nat`.

The quickselect `while (low <= high)` loop is given a fuel parameter counting
the partition steps it may still perform; `none` means the fuel was exhausted.
The top level runs it with fuel `length` and the termination theorem shows
this is never exhausted, i.e. the loop does at most `length` partition steps.
-/

/-- `arr[i]`: read of the working vector at index `i`. -/
def getv (l : List Int) (i : Nat) : Int := l.getD i 0

/-- The three-line swap of the source: `temp = arr[i]; arr[i] = arr[j]; arr[j] = temp`. -/
def swapv (l : List Int) (i j : Nat) : List Int :=
  (l.set i (getv l j)).set j (getv l i)

/-- Inner `for (j = low; j < high; j++)` loop of the `partition` lambda:
`i` is the index of the last element known to be `≤ pivot` (starts at
`low - 1`, which is why it is an `Int` in the source). -/
def partitionLoop (pivot : Int) (high : Nat) : List Int → Int → Nat → List Int × Int
  | l, i, j =>
    if j < high then
      if getv l j ≤ pivot then
        partitionLoop pivot high (swapv l (i + 1).toNat j) (i + 1) (j + 1)
      else
        partitionLoop pivot high l i (j + 1)
    else (l, i)
termination_by _ _ j => high - j

/-- The `partition` lambda: pivot is the last element `arr[high]`; after the
scan the pivot is swapped into its final position `i + 1`, which is returned. -/
def partition (l : List Int) (low high : Nat) : List Int × Nat :=
  let pivot := getv l high
  let r := partitionLoop pivot high l ((low : Int) - 1) low
  (swapv r.1 (r.2 + 1).toNat high, (r.2 + 1).toNat)

/-- The `while (low <= high)` loop of the `quickSelect` lambda, with fuel
bounding the number of partition steps; `none` means fuel ran out.  Returns
the mutated working copy together with the returned value. -/
def quickSelectGo (k : Int) : Nat → List Int → Int → Int → Option (List Int × Int)
  | 0, _, _, _ => none
  | fuel + 1, l, low, high =>
    if low ≤ high then
      let r := partition l low.toNat high.toNat
      if (r.2 : Int) = k - 1 then some (r.1, getv r.1 r.2)
      else if (r.2 : Int) > k - 1 then quickSelectGo k fuel r.1 low ((r.2 : Int) - 1)
      else quickSelectGo k fuel r.1 ((r.2 : Int) + 1) high
    else some (l, -1)

/-- The `quickSelect(nums, 0, nums.size() - 1, n)` call made on the working
copy, with fuel `length` (shown sufficient by the termination theorem). -/
def quickselectRun (nums : List Int) (n : Int) : Option (List Int × Int) :=
  quickSelectGo n nums.length nums 0 ((nums.length : Int) - 1)

/-- `sort_nth_smallest_quickselect`: range check, then quickselect. -/
def sort_nth_smallest_quickselect (nums : List Int) (n : Int) : Int :=
  if n ≤ 0 ∨ (nums.length : Int) < n then -1
  else ((quickselectRun nums n).getD (nums, -1)).2

/-- The `heapifyDown` lambda: sift the element at `parent` down inside the
heap region `[0, endIdx]`, always descending to the larger child. -/
def siftDown (l : List Int) (parent endIdx : Nat) : List Int :=
  if h : 2 * parent + 1 ≤ endIdx then
    if h2 : 2 * parent + 2 ≤ endIdx ∧ getv l (2 * parent + 1) < getv l (2 * parent + 2) then
      if getv l (2 * parent + 2) ≤ getv l parent then l
      else siftDown (swapv l parent (2 * parent + 2)) (2 * parent + 2) endIdx
    else
      if getv l (2 * parent + 1) ≤ getv l parent then l
      else siftDown (swapv l parent (2 * parent + 1)) (2 * parent + 1) endIdx
  else l
termination_by endIdx - parent
decreasing_by all_goals omega

/-- Step 1 loop of the heap algorithm:
`for (int i = (n - 2) / 2; i >= 0; i--) heapifyDown(nums, i, n - 1)`,
run here from the start index `i` down to `0`. -/
def buildHeapGo (n : Nat) : Nat → List Int → List Int
  | i, l =>
    let l' := siftDown l i (n - 1)
    if i = 0 then l' else buildHeapGo n (i - 1) l'
termination_by i => i
decreasing_by omega

/-- Step 2 loop of the heap algorithm: scan `i = n .. size - 1`; whenever
`nums[i] < nums[0]` replace the heap root and sift it down. -/
def heapScanGo (n size : Nat) : Nat → List Int → List Int
  | i, l =>
    if i < size then
      if getv l i < getv l 0 then
        heapScanGo n size (i + 1) (siftDown (l.set 0 (getv l i)) 0 (n - 1))
      else heapScanGo n size (i + 1) l
    else l
termination_by i => size - i
decreasing_by all_goals omega

/-- The mutated working copy of `sort_nth_smallest_heap` on a valid rank `n`:
build the max-heap over the first `n` positions (the start index `(n - 2) / 2`
agrees with the C++ `int` division for every reachable `n ≥ 1`), then scan the
remaining elements. -/
def heapRun (nums : List Int) (n : Nat) : List Int :=
  heapScanGo n nums.length n (buildHeapGo n ((n - 2) / 2) nums)

/-- `sort_nth_smallest_heap`: range check, heap phases, return the root. -/
def sort_nth_smallest_heap (nums : List Int) (n : Int) : Int :=
  if n ≤ 0 ∨ (nums.length : Int) < n then -1
  else getv (heapRun nums n.toNat) 0

/-- The facade `sort_nth_smallest`: defaults to quickselect. -/
def sort_nth_smallest (nums : List Int) (n : Int) : Int :=
  sort_nth_smallest_quickselect nums n

/-- Ascending sort: the `sorted(S)` of the specification. -/
def sortedL (l : List Int) : List Int := List.insertionSort (· ≤ ·) l

/-- The values of positions `low .. high` of the working vector, as a list. -/
def seg (l : List Int) (low high : Nat) : List Int := (l.drop low).take (high + 1 - low)

/-- Quickselect loop invariant: every position before `low` holds a value
`≤` every value at a position `≥ low`. -/
def PrefixInv (l : List Int) (low : Nat) : Prop :=
  ∀ i j, i < low → low ≤ j → j < l.length → getv l i ≤ getv l j

/-- Quickselect loop invariant: every position after `high` holds a value
`≥` every value at a position `≤ high`. -/
def SuffixInv (l : List Int) (high : Nat) : Prop :=
  ∀ i j, i ≤ high → high < j → j < l.length → getv l i ≤ getv l j

/-- Max-heap property on the first `n` positions. -/
def HeapUpTo (l : List Int) (n : Nat) : Prop :=
  ∀ j, 0 < j → j < n → getv l j ≤ getv l ((j - 1) / 2)

/-- `P` is a multiset of smallest elements of `M`: it is contained in `M` and
every element of `P` is `≤` every remaining element of `M`. -/
def IsNSmallest (M P : Multiset Int) : Prop :=
  P ≤ M ∧ ∀ x ∈ P, ∀ y ∈ M - P, x ≤ y

/-! ## Basic toolkit: `getv`, `swapv` -/

theorem getv_eq_getElem (l : List Int) (i : Nat) (h : i < l.length) : getv l i = l[i] :=
  List.getD_eq_getElem l 0 h

theorem length_set_eq (l : List Int) (i : Nat) (v : Int) : (l.set i v).length = l.length :=
  List.length_set l i v

theorem getv_set_self (l : List Int) (i : Nat) (v : Int) (h : i < l.length) :
    getv (l.set i v) i = v := by
  simp [getv, List.getD_eq_getElem?_getD, List.getElem?_set_self h]

theorem getv_set_ne (l : List Int) (i j : Nat) (v : Int) (h : i ≠ j) :
    getv (l.set i v) j = getv l j := by
  simp [getv, List.getD_eq_getElem?_getD, List.getElem?_set_ne h]

theorem length_swapv (l : List Int) (i j : Nat) : (swapv l i j).length = l.length := by
  simp [swapv]

theorem getv_swapv_fst (l : List Int) (i j : Nat) (hi : i < l.length) :
    getv (swapv l i j) i = getv l j := by
  unfold swapv
  rcases eq_or_ne j i with rfl | hne
  · exact getv_set_self _ _ _ (by simpa using hi)
  · rw [getv_set_ne _ _ _ _ hne, getv_set_self _ _ _ hi]

theorem getv_swapv_snd (l : List Int) (i j : Nat) (hj : j < l.length) :
    getv (swapv l i j) j = getv l i := by
  unfold swapv
  exact getv_set_self _ _ _ (by simpa using hj)

theorem getv_swapv_other (l : List Int) (i j k : Nat) (hki : k ≠ i) (hkj : k ≠ j) :
    getv (swapv l i j) k = getv l k := by
  unfold swapv
  rw [getv_set_ne _ _ _ _ (Ne.symm hkj), getv_set_ne _ _ _ _ (Ne.symm hki)]

theorem cons_set_perm (t : List Int) (k : Nat) (x : Int) (hk : k < t.length) :
    ((t.getD k 0) :: t.set k x).Perm (x :: t) := by
  induction t generalizing k with
  | nil => simp at hk
  | cons a t ih =>
    cases k with
    | zero => simpa using List.Perm.swap x a t
    | succ k =>
      simp only [List.getD_cons_succ, List.set_cons_succ]
      exact (List.Perm.swap a (t.getD k 0) (t.set k x)).trans
        (((ih k (by simpa using hk)).cons a).trans (List.Perm.swap x a t))

theorem swapv_perm (l : List Int) (i j : Nat) (hi : i < l.length) (hj : j < l.length) :
    (swapv l i j).Perm l := by
  induction l generalizing i j with
  | nil => simp at hi
  | cons a t ih =>
    cases i with
    | zero =>
      cases j with
      | zero => simp [swapv, getv]
      | succ k =>
        have : swapv (a :: t) 0 (k + 1) = (t.getD k 0) :: t.set k a := by
          simp [swapv, getv]
        rw [this]
        exact cons_set_perm t k a (by simpa using hj)
    | succ m =>
      cases j with
      | zero =>
        have : swapv (a :: t) (m + 1) 0 = (t.getD m 0) :: t.set m a := by
          simp [swapv, getv]
        rw [this]
        exact cons_set_perm t m a (by simpa using hi)
      | succ k =>
        have : swapv (a :: t) (m + 1) (k + 1) = a :: swapv t m k := by
          simp [swapv, getv]
        rw [this]
        exact (ih m k (by simpa using hi) (by simpa using hj)).cons a

/-! ## Toolkit: `sortedL` -/

theorem sortedL_sorted (l : List Int) : List.Sorted (· ≤ ·) (sortedL l) :=
  List.sorted_insertionSort _ l

theorem sortedL_perm (l : List Int) : (sortedL l).Perm l :=
  List.perm_insertionSort _ l

theorem sortedL_length (l : List Int) : (sortedL l).length = l.length :=
  List.length_insertionSort _ l

theorem sortedL_congr {l m : List Int} (h : l.Perm m) : sortedL l = sortedL m :=
  List.eq_of_perm_of_sorted ((sortedL_perm l).trans (h.trans (sortedL_perm m).symm))
    (sortedL_sorted l) (sortedL_sorted m)

theorem sortedL_append {l₁ l₂ : List Int} (h : ∀ x ∈ l₁, ∀ y ∈ l₂, x ≤ y) :
    sortedL (l₁ ++ l₂) = sortedL l₁ ++ sortedL l₂ := by
  refine List.eq_of_perm_of_sorted ?_ (sortedL_sorted _) ?_
  · exact (sortedL_perm _).trans (((sortedL_perm l₁).append (sortedL_perm l₂)).symm)
  · refine List.pairwise_append.mpr ⟨sortedL_sorted l₁, sortedL_sorted l₂, ?_⟩
    intro x hx y hy
    exact h x ((sortedL_perm l₁).mem_iff.mp hx) y ((sortedL_perm l₂).mem_iff.mp hy)

theorem sortedL_singleton (x : Int) : sortedL [x] = [x] := rfl

/-! ## Partition: Lomuto loop invariant -/

theorem partitionLoop_spec (pivot : Int) (high low : Nat) :
    ∀ (l : List Int) (i : Int) (j : Nat),
    high < l.length →
    low ≤ j → j ≤ high →
    (low : Int) - 1 ≤ i → i < (j : Int) →
    (∀ m : Nat, low ≤ m → (m : Int) ≤ i → getv l m ≤ pivot) →
    (∀ m : Nat, i < (m : Int) → m < j → pivot < getv l m) →
    (partitionLoop pivot high l i j).1.length = l.length ∧
    ((partitionLoop pivot high l i j).1).Perm l ∧
    (∀ m : Nat, m < low ∨ high ≤ m → getv (partitionLoop pivot high l i j).1 m = getv l m) ∧
    (low : Int) - 1 ≤ (partitionLoop pivot high l i j).2 ∧
    (partitionLoop pivot high l i j).2 < (high : Int) ∧
    (∀ m : Nat, low ≤ m → (m : Int) ≤ (partitionLoop pivot high l i j).2 →
      getv (partitionLoop pivot high l i j).1 m ≤ pivot) ∧
    (∀ m : Nat, (partitionLoop pivot high l i j).2 < (m : Int) → m < high →
      pivot < getv (partitionLoop pivot high l i j).1 m) := by
  intro l i j
  induction l, i, j using partitionLoop.induct pivot high with
  | case1 l i j hj hle ih =>
    intro hlen hlowj hjhigh hilow hij hLE hGT
    have hjlen : j < l.length := Nat.lt_trans hj hlen
    have ha : (((i + 1).toNat : Nat) : Int) = i + 1 := by omega
    have halen : (i + 1).toNat < l.length := by omega
    have hlen' : high < (swapv l (i + 1).toNat j).length := by
      rw [length_swapv]; exact hlen
    have hLE' : ∀ m : Nat, low ≤ m → (m : Int) ≤ i + 1 → getv (swapv l (i + 1).toNat j) m ≤ pivot := by
      intro m hm1 hm2
      rcases eq_or_ne m (i + 1).toNat with rfl | hma
      · rw [getv_swapv_fst _ _ _ halen]; exact hle
      · have hmj : m ≠ j := by omega
        rw [getv_swapv_other _ _ _ _ hma hmj]
        exact hLE m hm1 (by omega)
    have hGT' : ∀ m : Nat, i + 1 < (m : Int) → m < j + 1 → pivot < getv (swapv l (i + 1).toNat j) m := by
      intro m hm1 hm2
      rcases eq_or_ne m j with rfl | hmj
      · rw [getv_swapv_snd _ _ _ hjlen]
        exact hGT (i + 1).toNat (by omega) (by omega)
      · have hma : m ≠ (i + 1).toNat := by omega
        rw [getv_swapv_other _ _ _ _ hma hmj]
        exact hGT m (by omega) (by omega)
    obtain ⟨c1, c2, c3, c4, c5, c6, c7⟩ :=
      ih hlen' (by omega) (by omega) (by omega) (by omega) hLE' hGT'
    rw [partitionLoop, if_pos hj, if_pos hle]
    refine ⟨c1.trans (by rw [length_swapv]), c2.trans (swapv_perm l _ _ halen hjlen), ?_, c4, c5, c6, c7⟩
    intro m hm
    rw [c3 m hm]
    exact getv_swapv_other _ _ _ _ (by omega) (by omega)
  | case2 l i j hj hnle ih =>
    intro hlen hlowj hjhigh hilow hij hLE hGT
    have hGT' : ∀ m : Nat, i < (m : Int) → m < j + 1 → pivot < getv l m := by
      intro m hm1 hm2
      rcases eq_or_ne m j with rfl | hmj
      · exact lt_of_not_ge hnle
      · exact hGT m hm1 (by omega)
    obtain ⟨c1, c2, c3, c4, c5, c6, c7⟩ :=
      ih hlen (by omega) (by omega) hilow (by omega) hLE hGT'
    rw [partitionLoop, if_pos hj, if_neg hnle]
    exact ⟨c1, c2, c3, c4, c5, c6, c7⟩
  | case3 l i j hj =>
    intro hlen hlowj hjhigh hilow hij hLE hGT
    have hjh : j = high := by omega
    subst hjh
    rw [partitionLoop, if_neg hj]
    exact ⟨rfl, List.Perm.refl l, fun m _ => rfl, hilow, by omega, hLE, fun m h1 h2 => hGT m h1 h2⟩

theorem take_eq_of_getv (l₁ l₂ : List Int) (n : Nat) (hlen : l₁.length = l₂.length)
    (h : ∀ m, m < n → getv l₁ m = getv l₂ m) : l₁.take n = l₂.take n := by
  apply List.ext_getElem (by simp [hlen])
  intro m h₁ h₂
  simp only [List.getElem_take]
  have hm : m < l₁.length := by simp at h₁; omega
  rw [← getv_eq_getElem _ _ hm, ← getv_eq_getElem _ _ (hlen ▸ hm)]
  exact h m (by simp at h₁; omega)

theorem drop_eq_of_getv (l₁ l₂ : List Int) (n : Nat) (hlen : l₁.length = l₂.length)
    (h : ∀ m, n ≤ m → m < l₁.length → getv l₁ m = getv l₂ m) : l₁.drop n = l₂.drop n := by
  apply List.ext_getElem (by simp [hlen])
  intro m h₁ h₂
  simp only [List.getElem_drop]
  have hm : n + m < l₁.length := by simp at h₁; omega
  rw [← getv_eq_getElem _ _ hm, ← getv_eq_getElem _ _ (hlen ▸ hm)]
  exact h (n + m) (by omega) hm

theorem seg_decomp (l : List Int) (low high : Nat) (hlh : low ≤ high) :
    l = l.take low ++ seg l low high ++ l.drop (high + 1) := by
  unfold seg
  rw [List.append_assoc]
  have h1 : l.drop (high + 1) = (l.drop low).drop (high + 1 - low) := by
    rw [List.drop_drop]
    congr 1
    omega
  rw [h1, List.take_append_drop, List.take_append_drop]

theorem seg_perm_of_frame (l₁ l₂ : List Int) (low high : Nat) (hlen : l₁.length = l₂.length)
    (hph : high < l₂.length) (hlh : low ≤ high) (hperm : l₁.Perm l₂)
    (hframe : ∀ m, m < l₂.length → m < low ∨ high < m → getv l₁ m = getv l₂ m) :
    (seg l₁ low high).Perm (seg l₂ low high) := by
  have htake : l₁.take low = l₂.take low :=
    take_eq_of_getv _ _ _ hlen (fun m hm => hframe m (by omega) (Or.inl hm))
  have hdrop : l₁.drop (high + 1) = l₂.drop (high + 1) :=
    drop_eq_of_getv _ _ _ hlen (fun m hm hml => hframe m (by omega) (Or.inr (by omega)))
  have h₁ := seg_decomp l₁ low high hlh
  have h₂ := seg_decomp l₂ low high hlh
  rw [← Multiset.coe_eq_coe]
  have hm : (↑l₁ : Multiset Int) = ↑l₂ := Multiset.coe_eq_coe.mpr hperm
  rw [h₁, h₂, htake, hdrop] at hm
  have e₁ : (↑(l₂.take low ++ seg l₁ low high ++ l₂.drop (high + 1)) : Multiset Int) =
      ↑(l₂.take low) + ↑(seg l₁ low high) + ↑(l₂.drop (high + 1)) := by
    simp
  have e₂ : (↑(l₂.take low ++ seg l₂ low high ++ l₂.drop (high + 1)) : Multiset Int) =
      ↑(l₂.take low) + ↑(seg l₂ low high) + ↑(l₂.drop (high + 1)) := by
    simp
  rw [e₁, e₂] at hm
  have := add_right_cancel hm
  exact add_left_cancel this

theorem partition_spec (l : List Int) (low high : Nat) (hlh : low ≤ high) (hhl : high < l.length) :
    (partition l low high).1.length = l.length ∧
    ((partition l low high).1).Perm l ∧
    low ≤ (partition l low high).2 ∧ (partition l low high).2 ≤ high ∧
    getv (partition l low high).1 (partition l low high).2 = getv l high ∧
    (∀ m, low ≤ m → m < (partition l low high).2 →
      getv (partition l low high).1 m ≤ getv (partition l low high).1 (partition l low high).2) ∧
    (∀ m, (partition l low high).2 < m → m ≤ high →
      getv (partition l low high).1 (partition l low high).2 < getv (partition l low high).1 m) ∧
    (∀ m, m < l.length → m < low ∨ high < m → getv (partition l low high).1 m = getv l m) := by
  obtain ⟨c1, c2, c3, c4, c5, c6, c7⟩ :=
    partitionLoop_spec (getv l high) high low l ((low : Int) - 1) low hhl (le_refl low) hlh
      (le_refl _) (by omega) (fun m h1 h2 => by omega) (fun m h1 h2 => by omega)
  have hdef : partition l low high =
      (swapv (partitionLoop (getv l high) high l ((low : Int) - 1) low).1
        (((partitionLoop (getv l high) high l ((low : Int) - 1) low).2 + 1).toNat) high,
        ((partitionLoop (getv l high) high l ((low : Int) - 1) low).2 + 1).toNat) := rfl
  set r0 := partitionLoop (getv l high) high l ((low : Int) - 1) low with hr0
  set p := (r0.2 + 1).toNat with hpdef
  have hp : (p : Int) = r0.2 + 1 := by omega
  have hlp : low ≤ p := by omega
  have hphigh : p ≤ high := by omega
  have hplen : p < r0.1.length := by omega
  have hhlen : high < r0.1.length := by omega
  rw [hdef]
  simp only
  have hpivp : getv (swapv r0.1 p high) p = getv l high := by
    rw [getv_swapv_fst _ _ _ hplen]
    exact c3 high (Or.inr (le_refl high))
  refine ⟨by rw [length_swapv]; exact c1,
    (swapv_perm _ _ _ hplen hhlen).trans c2, hlp, hphigh, hpivp, ?_, ?_, ?_⟩
  · intro m hm1 hm2
    have hmp : m ≠ p := by omega
    have hmh : m ≠ high := by omega
    rw [getv_swapv_other _ _ _ _ hmp hmh, hpivp]
    exact c6 m hm1 (by omega)
  · intro m hm1 hm2
    rw [hpivp]
    rcases eq_or_ne m high with rfl | hmh
    · rw [getv_swapv_snd _ _ _ hhlen]
      exact c7 p (by omega) (by omega)
    · have hmp : m ≠ p := by omega
      rw [getv_swapv_other _ _ _ _ hmp hmh]
      exact c7 m (by omega) (by omega)
  · intro m hml hm
    have hmp : m ≠ p := by omega
    have hmh : m ≠ high := by omega
    rw [getv_swapv_other _ _ _ _ hmp hmh]
    exact c3 m (by omega)

/-! ## Sorted-list endgame lemmas -/

theorem mem_take_imp (l : List Int) (n : Nat) (x : Int) (hx : x ∈ l.take n) :
    ∃ i, i < n ∧ i < l.length ∧ getv l i = x := by
  obtain ⟨i, hi, hgi⟩ := List.mem_iff_getElem.mp hx
  have hi' : i < n ∧ i < l.length := by
    simp [List.length_take] at hi
    omega
  refine ⟨i, hi'.1, hi'.2, ?_⟩
  rw [getv_eq_getElem _ _ hi'.2, ← hgi, List.getElem_take]

theorem mem_drop_imp (l : List Int) (n : Nat) (y : Int) (hy : y ∈ l.drop n) :
    ∃ j, n ≤ j ∧ j < l.length ∧ getv l j = y := by
  obtain ⟨j, hj, hgj⟩ := List.mem_iff_getElem.mp hy
  have hj' : n + j < l.length := by
    simp [List.length_drop] at hj
    omega
  refine ⟨n + j, by omega, hj', ?_⟩
  rw [getv_eq_getElem _ _ hj', ← hgj, List.getElem_drop]

theorem sortedL_split (l : List Int) (n : Nat) (hn : n ≤ l.length)
    (h : ∀ i j, i < n → n ≤ j → j < l.length → getv l i ≤ getv l j) :
    sortedL l = sortedL (l.take n) ++ sortedL (l.drop n) := by
  conv_lhs => rw [← List.take_append_drop n l]
  apply sortedL_append
  intro x hx y hy
  obtain ⟨i, hi1, hi2, rfl⟩ := mem_take_imp l n x hx
  obtain ⟨j, hj1, hj2, rfl⟩ := mem_drop_imp l n y hy
  exact h i j hi1 hj1 hj2

theorem sortedL_take_eq (l S : List Int) (n : Nat) (hperm : l.Perm S) (hn : n ≤ l.length)
    (h : ∀ i j, i < n → n ≤ j → j < l.length → getv l i ≤ getv l j) :
    (↑((sortedL S).take n) : Multiset Int) = ↑(l.take n) := by
  rw [← sortedL_congr hperm, sortedL_split l n hn h, List.take_left' ?hl]
  case hl => rw [sortedL_length, List.length_take]; omega
  exact Multiset.coe_eq_coe.mpr (sortedL_perm _)

theorem sortedL_getD_eq (l S : List Int) (p : Nat) (hperm : l.Perm S) (hp : p < l.length)
    (hle : ∀ i, i < p → getv l i ≤ getv l p)
    (hge : ∀ j, p < j → j < l.length → getv l p ≤ getv l j) :
    (sortedL S).getD p 0 = getv l p := by
  have hsplit : ∀ i j, i < p → p ≤ j → j < l.length → getv l i ≤ getv l j := by
    intro i j h1 h2 h3
    rcases eq_or_lt_of_le h2 with rfl | h2'
    · exact hle i h1
    · exact (hle i h1).trans (hge j h2' h3)
  rw [← sortedL_congr hperm, sortedL_split l p (by omega) hsplit]
  have hdrop : l.drop p = getv l p :: l.drop (p + 1) := by
    rw [getv_eq_getElem _ _ hp]
    exact List.drop_eq_getElem_cons hp
  have hcons : sortedL (l.drop p) = getv l p :: sortedL (l.drop (p + 1)) := by
    rw [hdrop]
    have he : getv l p :: l.drop (p + 1) = [getv l p] ++ l.drop (p + 1) := rfl
    rw [he, sortedL_append, sortedL_singleton, List.singleton_append]
    intro x hx y hy
    have hxp : x = getv l p := by simpa using hx
    subst hxp
    obtain ⟨j, hj1, hj2, rfl⟩ := mem_drop_imp l (p + 1) y hy
    exact hge j (by omega) hj2
  rw [hcons]
  have hlenA : (sortedL (l.take p)).length = p := by
    rw [sortedL_length, List.length_take]; omega
  have hplen : p < (sortedL (l.take p) ++ getv l p :: sortedL (l.drop (p + 1))).length := by
    rw [List.length_append, hlenA]; simp
  rw [List.getD_eq_getElem _ _ hplen, List.getElem_append_right (by omega)]
  simp [hlenA]

/-! ## Quickselect loop invariants -/

theorem getv_mem_seg (l : List Int) (low high j : Nat) (h1 : low ≤ j) (h2 : j ≤ high)
    (h3 : high < l.length) : getv l j ∈ seg l low high := by
  unfold seg
  rw [getv_eq_getElem _ _ (by omega)]
  apply List.mem_iff_getElem.mpr
  have hlen : ((l.drop low).take (high + 1 - low)).length = high + 1 - low := by
    simp [List.length_take, List.length_drop]
    omega
  refine ⟨j - low, by omega, ?_⟩
  rw [List.getElem_take, List.getElem_drop]
  congr 1
  omega

theorem mem_seg_imp (l : List Int) (low high : Nat) (x : Int) (h3 : high < l.length)
    (hx : x ∈ seg l low high) : ∃ m, low ≤ m ∧ m ≤ high ∧ getv l m = x := by
  obtain ⟨r, hr, hgr⟩ := List.mem_iff_getElem.mp hx
  have hr' : r < high + 1 - low := by
    simp [seg, List.length_take, List.length_drop] at hr
    omega
  refine ⟨low + r, by omega, by omega, ?_⟩
  rw [getv_eq_getElem _ _ (by omega), ← hgr]
  simp only [seg, List.getElem_take, List.getElem_drop]

theorem PrefixInv_transfer (l l₁ : List Int) (low high : Nat) (hlen : l₁.length = l.length)
    (hhl : high < l.length) (hlh : low ≤ high)
    (hseg : (seg l₁ low high).Perm (seg l low high))
    (hframe : ∀ m, m < l.length → m < low ∨ high < m → getv l₁ m = getv l m)
    (hpre : PrefixInv l low) : PrefixInv l₁ low := by
  intro i j hi hj hjl
  rw [hlen] at hjl
  rw [hframe i (by omega) (Or.inl hi)]
  rcases le_or_lt j high with hjh | hjh
  · have hmem : getv l₁ j ∈ seg l low high :=
      hseg.mem_iff.mp (getv_mem_seg l₁ low high j hj hjh (by omega))
    obtain ⟨m, hm1, hm2, hm3⟩ := mem_seg_imp l low high _ hhl hmem
    rw [← hm3]
    exact hpre i m hi hm1 (by omega)
  · rw [hframe j hjl (Or.inr hjh)]
    exact hpre i j hi hj hjl

theorem SuffixInv_transfer (l l₁ : List Int) (low high : Nat) (hlen : l₁.length = l.length)
    (hhl : high < l.length) (hlh : low ≤ high)
    (hseg : (seg l₁ low high).Perm (seg l low high))
    (hframe : ∀ m, m < l.length → m < low ∨ high < m → getv l₁ m = getv l m)
    (hsuf : SuffixInv l high) : SuffixInv l₁ high := by
  intro i j hi hj hjl
  rw [hlen] at hjl
  rw [hframe j (by omega) (Or.inr hj)]
  rcases le_or_lt low i with hil | hil
  · have hmem : getv l₁ i ∈ seg l low high :=
      hseg.mem_iff.mp (getv_mem_seg l₁ low high i hil hi (by omega))
    obtain ⟨m, hm1, hm2, hm3⟩ := mem_seg_imp l low high _ hhl hmem
    rw [← hm3]
    exact hsuf m j hm2 hj hjl
  · rw [hframe i (by omega) (Or.inl hil)]
    exact hsuf i j hi hj hjl

theorem PrefixInv_step (l₁ : List Int) (low high p : Nat)
    (hlp : low ≤ p) (hph : p ≤ high) (hhl : high < l₁.length)
    (hleft : ∀ m, low ≤ m → m < p → getv l₁ m ≤ getv l₁ p)
    (hright : ∀ m, p < m → m ≤ high → getv l₁ p < getv l₁ m)
    (hpre : PrefixInv l₁ low) (hsuf : SuffixInv l₁ high) :
    PrefixInv l₁ (p + 1) := by
  intro i j hi hj hjl
  rcases lt_or_ge i low with hil | hil
  · exact hpre i j hil (by omega) hjl
  · have hip : getv l₁ i ≤ getv l₁ p := by
      rcases eq_or_ne i p with rfl | hne
      · exact le_refl _
      · exact hleft i hil (by omega)
    rcases le_or_lt j high with hjh | hjh
    · exact hip.trans (le_of_lt (hright j (by omega) hjh))
    · exact hsuf i j (by omega) hjh hjl

theorem SuffixInv_step (l₁ : List Int) (low high p : Nat) (hp1 : 1 ≤ p)
    (hlp : low ≤ p) (hph : p ≤ high) (hhl : high < l₁.length)
    (hleft : ∀ m, low ≤ m → m < p → getv l₁ m ≤ getv l₁ p)
    (hright : ∀ m, p < m → m ≤ high → getv l₁ p < getv l₁ m)
    (hpre : PrefixInv l₁ low) (hsuf : SuffixInv l₁ high) :
    SuffixInv l₁ (p - 1) := by
  intro i j hi hj hjl
  rcases lt_or_ge i low with hil | hil
  · exact hpre i j hil (by omega) hjl
  · have hip : getv l₁ i ≤ getv l₁ p := hleft i hil (by omega)
    rcases le_or_lt j high with hjh | hjh
    · rcases eq_or_ne j p with rfl | hne
      · exact hip
      · exact hip.trans (le_of_lt (hright j (by omega) hjh))
    · exact hsuf i j (by omega) hjh hjl

/-! ## Quickselect: main loop theorem -/

theorem quickSelectGo_spec (S : List Int) (k : Int) :
    ∀ (fuel : Nat) (l : List Int) (low high : Nat),
    l.Perm S →
    (low : Int) ≤ k - 1 → (k - 1 : Int) ≤ (high : Int) → high < l.length →
    PrefixInv l low → SuffixInv l high →
    high - low < fuel →
    ∃ l', quickSelectGo k fuel l low high = some (l', (sortedL S).getD (k - 1).toNat 0) ∧
      l'.Perm S ∧ l'.length = S.length ∧
      (↑(l'.take ((k - 1).toNat + 1)) : Multiset Int) = ↑((sortedL S).take ((k - 1).toNat + 1)) := by
  intro fuel
  induction fuel with
  | zero => intro l low high _ _ _ _ _ _ h7; omega
  | succ fuel ih =>
    intro l low high hperm hlowk hkh hhl hpre hsuf hfuel
    have hlh : low ≤ high := by omega
    have hSlen : l.length = S.length := hperm.length_eq
    rw [quickSelectGo]
    rw [if_pos (by exact_mod_cast Nat.cast_le.mpr hlh : (low : Int) ≤ (high : Int))]
    simp only [Int.toNat_natCast]
    obtain ⟨p1, p2, p3, p4, p5, p6, p7, p8⟩ := partition_spec l low high hlh hhl
    set P := partition l low high with hP
    set p := P.2 with hp
    have hseg : (seg P.1 low high).Perm (seg l low high) :=
      seg_perm_of_frame P.1 l low high p1 hhl hlh p2 p8
    have hpre1 : PrefixInv P.1 low := PrefixInv_transfer l P.1 low high p1 hhl hlh hseg p8 hpre
    have hsuf1 : SuffixInv P.1 high := SuffixInv_transfer l P.1 low high p1 hhl hlh hseg p8 hsuf
    have hplen : p < P.1.length := by omega
    by_cases hc1 : (p : Int) = k - 1
    · rw [if_pos hc1]
      have hpk : p = (k - 1).toNat := by omega
      have hle_p : ∀ i, i < p → getv P.1 i ≤ getv P.1 p := by
        intro i hi
        rcases lt_or_ge i low with hil | hil
        · exact hpre1 i p hil p3 hplen
        · exact p6 i hil hi
      have hge_p : ∀ j, p < j → j < P.1.length → getv P.1 p ≤ getv P.1 j := by
        intro j hj hjl
        rcases le_or_lt j high with hjh | hjh
        · exact le_of_lt (p7 j hj hjh)
        · exact hsuf1 p j p4 hjh hjl
      have hval : (sortedL S).getD p 0 = getv P.1 p :=
        sortedL_getD_eq P.1 S p (p2.trans hperm) hplen hle_p hge_p
      have hsplit2 : ∀ i j, i < p + 1 → p + 1 ≤ j → j < P.1.length → getv P.1 i ≤ getv P.1 j := by
        intro i j hi hj hjl
        have h1 : getv P.1 i ≤ getv P.1 p := by
          rcases eq_or_ne i p with rfl | hne
          · exact le_refl _
          · exact hle_p i (by omega)
        exact h1.trans (hge_p j (by omega) hjl)
      have htake : (↑((sortedL S).take (p + 1)) : Multiset Int) = ↑(P.1.take (p + 1)) :=
        sortedL_take_eq P.1 S (p + 1) (p2.trans hperm) (by omega) hsplit2
      refine ⟨P.1, ?_, p2.trans hperm, by omega, ?_⟩
      · rw [← hpk, hval]
      · rw [← hpk]
        exact htake.symm
    · rw [if_neg hc1]
      by_cases hc2 : (p : Int) > k - 1
      · rw [if_pos hc2]
        have hp1 : 1 ≤ p := by omega
        have hcast : (p : Int) - 1 = ((p - 1 : Nat) : Int) := by omega
        rw [hcast]
        apply ih P.1 low (p - 1) (p2.trans hperm) hlowk (by omega) (by omega) hpre1 ?_ (by omega)
        exact SuffixInv_step P.1 low high p hp1 p3 p4 (by omega) p6 p7 hpre1 hsuf1
      · rw [if_neg hc2]
        have hcast : (p : Int) + 1 = ((p + 1 : Nat) : Int) := by omega
        rw [hcast]
        apply ih P.1 (p + 1) high (p2.trans hperm) (by omega) hkh (by omega) ?_ hsuf1 (by omega)
        exact PrefixInv_step P.1 low high p p3 p4 (by omega) p6 p7 hpre1 hsuf1

theorem quickselectRun_spec (S : List Int) (n : Int) (h1 : 1 ≤ n) (h2 : n ≤ (S.length : Int)) :
    ∃ l', quickselectRun S n = some (l', (sortedL S).getD (n - 1).toNat 0) ∧
      l'.Perm S ∧ l'.length = S.length ∧
      (↑(l'.take ((n - 1).toNat + 1)) : Multiset Int) = ↑((sortedL S).take ((n - 1).toNat + 1)) := by
  have hlen1 : 1 ≤ S.length := by omega
  have h0 : ((0 : Nat) : Int) = 0 := by simp
  have hc : ((S.length - 1 : Nat) : Int) = (S.length : Int) - 1 := by omega
  have hmain := quickSelectGo_spec S n S.length S 0 (S.length - 1) (List.Perm.refl S)
    (by omega) (by omega) (by omega)
    (fun i j hi hj hjl => by omega)
    (fun i j hi hj hjl => by omega)
    (by omega)
  rw [h0, hc] at hmain
  exact hmain

/-! ## Sift-down: structural lemmas -/

theorem siftDown_length (l : List Int) (parent endIdx : Nat) :
    (siftDown l parent endIdx).length = l.length := by
  induction l, parent, endIdx using siftDown.induct with
  | case1 l p endIdx h1 h2 hstop => rw [siftDown, dif_pos h1, dif_pos h2, if_pos hstop]
  | case2 l p endIdx h1 h2 hswap ih =>
    rw [siftDown, dif_pos h1, dif_pos h2, if_neg hswap]
    rw [ih, length_swapv]
  | case3 l p endIdx h1 h2 hstop => rw [siftDown, dif_pos h1, dif_neg h2, if_pos hstop]
  | case4 l p endIdx h1 h2 hswap ih =>
    rw [siftDown, dif_pos h1, dif_neg h2, if_neg hswap]
    rw [ih, length_swapv]
  | case5 l p endIdx h1 => rw [siftDown, dif_neg h1]

theorem siftDown_perm (l : List Int) (parent endIdx : Nat) (hlen : endIdx < l.length) :
    (siftDown l parent endIdx).Perm l := by
  induction l, parent, endIdx using siftDown.induct with
  | case1 l p endIdx h1 h2 hstop =>
    rw [siftDown, dif_pos h1, dif_pos h2, if_pos hstop]
  | case2 l p endIdx h1 h2 hswap ih =>
    rw [siftDown, dif_pos h1, dif_pos h2, if_neg hswap]
    refine (ih (by rw [length_swapv]; exact hlen)).trans
      (swapv_perm l p (2 * p + 2) (by omega) (by omega))
  | case3 l p endIdx h1 h2 hstop =>
    rw [siftDown, dif_pos h1, dif_neg h2, if_pos hstop]
  | case4 l p endIdx h1 h2 hswap ih =>
    rw [siftDown, dif_pos h1, dif_neg h2, if_neg hswap]
    refine (ih (by rw [length_swapv]; exact hlen)).trans
      (swapv_perm l p (2 * p + 1) (by omega) (by omega))
  | case5 l p endIdx h1 => rw [siftDown, dif_neg h1]

theorem siftDown_frame (l : List Int) (parent endIdx : Nat) (hp : parent ≤ endIdx) :
    ∀ m, endIdx < m → getv (siftDown l parent endIdx) m = getv l m := by
  induction l, parent, endIdx using siftDown.induct with
  | case1 l p endIdx h1 h2 hstop =>
    intro m hm
    rw [siftDown, dif_pos h1, dif_pos h2, if_pos hstop]
  | case2 l p endIdx h1 h2 hswap ih =>
    intro m hm
    rw [siftDown, dif_pos h1, dif_pos h2, if_neg hswap]
    rw [ih (by omega) m hm]
    exact getv_swapv_other l p (2 * p + 2) m (by omega) (by omega)
  | case3 l p endIdx h1 h2 hstop =>
    intro m hm
    rw [siftDown, dif_pos h1, dif_neg h2, if_pos hstop]
  | case4 l p endIdx h1 h2 hswap ih =>
    intro m hm
    rw [siftDown, dif_pos h1, dif_neg h2, if_neg hswap]
    rw [ih (by omega) m hm]
    exact getv_swapv_other l p (2 * p + 1) m (by omega) (by omega)
  | case5 l p endIdx h1 =>
    intro m hm
    rw [siftDown, dif_neg h1]

/-! ## Sift-down: heap property restoration -/

theorem siftDown_heap (start : Nat) :
    ∀ (l : List Int) (parent endIdx : Nat),
    endIdx < l.length →
    start ≤ parent →
    (∀ j, 0 < j → j ≤ endIdx → start ≤ (j - 1) / 2 → (j - 1) / 2 ≠ parent →
      getv l j ≤ getv l ((j - 1) / 2)) →
    (start < parent → ∀ j, 0 < j → j ≤ endIdx → (j - 1) / 2 = parent →
      getv l j ≤ getv l ((parent - 1) / 2)) →
    ∀ j, 0 < j → j ≤ endIdx → start ≤ (j - 1) / 2 →
      getv (siftDown l parent endIdx) j ≤ getv (siftDown l parent endIdx) ((j - 1) / 2) := by
  intro l parent endIdx
  induction l, parent, endIdx using siftDown.induct with
  | case1 l p endIdx h1 h2 hstop =>
    intro hlen hsp hheap hupper j hj0 hje hjs
    rw [siftDown, dif_pos h1, dif_pos h2, if_pos hstop]
    rcases eq_or_ne ((j - 1) / 2) p with hq | hq
    · have hj12 : j = 2 * p + 1 ∨ j = 2 * p + 2 := by omega
      rcases hj12 with rfl | rfl
      · rw [hq]
        exact le_of_lt (lt_of_lt_of_le h2.2 hstop)
      · rw [hq]
        exact hstop
    · exact hheap j hj0 hje hjs hq
  | case2 l p endIdx h1 h2 hswap ih =>
    intro hlen hsp hheap hupper j hj0 hje hjs
    rw [siftDown, dif_pos h1, dif_pos h2, if_neg hswap]
    have hplen : p < l.length := by omega
    have hclen : 2 * p + 2 < l.length := by omega
    refine ih (by rw [length_swapv]; exact hlen) (by omega) ?_ ?_ j hj0 hje hjs
    · intro j' hj'0 hj'e hj's hj'q
      by_cases hqp : (j' - 1) / 2 = p
      · have hj12 : j' = 2 * p + 1 ∨ j' = 2 * p + 2 := by omega
        rcases hj12 with rfl | rfl
        · rw [hqp, getv_swapv_other l p (2 * p + 2) (2 * p + 1) (by omega) (by omega),
            getv_swapv_fst l p (2 * p + 2) hplen]
          exact le_of_lt h2.2
        · rw [hqp, getv_swapv_snd l p (2 * p + 2) hclen, getv_swapv_fst l p (2 * p + 2) hplen]
          exact le_of_lt (not_le.mp hswap)
      · by_cases hj'p : j' = p
        · subst hj'p
          have hstartp : start < j' := by omega
          rw [getv_swapv_fst l j' (2 * j' + 2) hplen,
            getv_swapv_other l j' (2 * j' + 2) ((j' - 1) / 2) (by omega) (by omega)]
          exact hupper hstartp (2 * j' + 2) (by omega) (by omega) (by omega)
        · have hj'c : j' ≠ 2 * p + 2 := by omega
          rw [getv_swapv_other l p (2 * p + 2) j' hj'p hj'c,
            getv_swapv_other l p (2 * p + 2) ((j' - 1) / 2) hqp hj'q]
          exact hheap j' hj'0 hj'e hj's hqp
    · intro _ j' hj'0 hj'e hj'q
      have hcp : (2 * p + 2 - 1) / 2 = p := by omega
      rw [hcp, getv_swapv_other l p (2 * p + 2) j' (by omega) (by omega),
        getv_swapv_fst l p (2 * p + 2) hplen]
      have := hheap j' hj'0 hj'e (by omega) (by omega)
      rw [hj'q] at this
      exact this
  | case3 l p endIdx h1 h2 hstop =>
    intro hlen hsp hheap hupper j hj0 hje hjs
    rw [siftDown, dif_pos h1, dif_neg h2, if_pos hstop]
    rcases eq_or_ne ((j - 1) / 2) p with hq | hq
    · have hj12 : j = 2 * p + 1 ∨ j = 2 * p + 2 := by omega
      rcases hj12 with rfl | rfl
      · rw [hq]
        exact hstop
      · rw [hq]
        have hr : ¬ getv l (2 * p + 1) < getv l (2 * p + 2) := fun hlt => h2 ⟨hje, hlt⟩
        exact (not_lt.mp hr).trans hstop
    · exact hheap j hj0 hje hjs hq
  | case4 l p endIdx h1 h2 hswap ih =>
    intro hlen hsp hheap hupper j hj0 hje hjs
    rw [siftDown, dif_pos h1, dif_neg h2, if_neg hswap]
    have hplen : p < l.length := by omega
    have hclen : 2 * p + 1 < l.length := by omega
    refine ih (by rw [length_swapv]; exact hlen) (by omega) ?_ ?_ j hj0 hje hjs
    · intro j' hj'0 hj'e hj's hj'q
      by_cases hqp : (j' - 1) / 2 = p
      · have hj12 : j' = 2 * p + 1 ∨ j' = 2 * p + 2 := by omega
        rcases hj12 with rfl | rfl
        · rw [hqp, getv_swapv_snd l p (2 * p + 1) hclen, getv_swapv_fst l p (2 * p + 1) hplen]
          exact le_of_lt (not_le.mp hswap)
        · have hs : ¬ getv l (2 * p + 1) < getv l (2 * p + 2) := fun hlt => h2 ⟨hj'e, hlt⟩
          rw [hqp, getv_swapv_other l p (2 * p + 1) (2 * p + 2) (by omega) (by omega),
            getv_swapv_fst l p (2 * p + 1) hplen]
          exact not_lt.mp hs
      · by_cases hj'p : j' = p
        · subst hj'p
          have hstartp : start < j' := by omega
          rw [getv_swapv_fst l j' (2 * j' + 1) hplen,
            getv_swapv_other l j' (2 * j' + 1) ((j' - 1) / 2) (by omega) (by omega)]
          exact hupper hstartp (2 * j' + 1) (by omega) (by omega) (by omega)
        · have hj'c : j' ≠ 2 * p + 1 := by omega
          rw [getv_swapv_other l p (2 * p + 1) j' hj'p hj'c,
            getv_swapv_other l p (2 * p + 1) ((j' - 1) / 2) hqp hj'q]
          exact hheap j' hj'0 hj'e hj's hqp
    · intro _ j' hj'0 hj'e hj'q
      have hcp : (2 * p + 1 - 1) / 2 = p := by omega
      rw [hcp, getv_swapv_other l p (2 * p + 1) j' (by omega) (by omega),
        getv_swapv_fst l p (2 * p + 1) hplen]
      have := hheap j' hj'0 hj'e (by omega) (by omega)
      rw [hj'q] at this
      exact this
  | case5 l p endIdx h1 =>
    intro hlen hsp hheap hupper j hj0 hje hjs
    rw [siftDown, dif_neg h1]
    rcases eq_or_ne ((j - 1) / 2) p with hq | hq
    · exfalso
      omega
    · exact hheap j hj0 hje hjs hq

/-! ## Heap build phase -/

theorem buildHeapGo_spec (n : Nat) : ∀ (i : Nat) (l : List Int),
    n - 1 < l.length →
    (∀ j, 0 < j → j ≤ n - 1 → i < (j - 1) / 2 → getv l j ≤ getv l ((j - 1) / 2)) →
    (buildHeapGo n i l).length = l.length ∧
    ((buildHeapGo n i l)).Perm l ∧
    (∀ m, n - 1 < m → getv (buildHeapGo n i l) m = getv l m) ∧
    (∀ j, 0 < j → j ≤ n - 1 →
      getv (buildHeapGo n i l) j ≤ getv (buildHeapGo n i l) ((j - 1) / 2)) := by
  intro i
  induction i using Nat.strong_induction_on with
  | _ i ih =>
    intro l hlen hheap
    rcases eq_or_ne i 0 with rfl | hi0
    · have hgo : buildHeapGo n 0 l = siftDown l 0 (n - 1) := by
        rw [buildHeapGo]
        simp
      rw [hgo]
      refine ⟨siftDown_length l 0 (n - 1), siftDown_perm l 0 (n - 1) hlen,
        siftDown_frame l 0 (n - 1) (by omega), ?_⟩
      intro j hj0 hje
      exact siftDown_heap 0 l 0 (n - 1) hlen (le_refl 0)
        (fun j' h0 he hs hne => hheap j' h0 he (by omega))
        (fun hlt => absurd hlt (by omega)) j hj0 hje (by omega)
    · have hgo : buildHeapGo n i l = buildHeapGo n (i - 1) (siftDown l i (n - 1)) := by
        rw [buildHeapGo]
        simp [hi0]
      have hheap1 : ∀ j, 0 < j → j ≤ n - 1 → i ≤ (j - 1) / 2 →
          getv (siftDown l i (n - 1)) j ≤ getv (siftDown l i (n - 1)) ((j - 1) / 2) := by
        intro j hj0 hje hjs
        exact siftDown_heap i l i (n - 1) hlen (le_refl i)
          (fun j' h0 he hs hne => hheap j' h0 he (by omega))
          (fun hlt => absurd hlt (by omega)) j hj0 hje hjs
      have hlen1 : n - 1 < (siftDown l i (n - 1)).length := by
        rw [siftDown_length]; exact hlen
      obtain ⟨c1, c2, c3, c4⟩ := ih (i - 1) (by omega) (siftDown l i (n - 1)) hlen1
        (fun j h0 he hs => hheap1 j h0 he (by omega))
      rw [hgo]
      refine ⟨c1.trans (siftDown_length l i (n - 1)),
        c2.trans (siftDown_perm l i (n - 1) hlen), ?_, c4⟩
      intro m hm
      rcases le_or_lt i (n - 1) with hile | hile
      · rw [c3 m hm, siftDown_frame l i (n - 1) hile m hm]
      · have hsd : siftDown l i (n - 1) = l := by
          rw [siftDown, dif_neg (by omega)]
        rw [c3 m hm, hsd]

theorem heap_root_max (l : List Int) (n : Nat) (hheap : HeapUpTo l n) :
    ∀ j, j < n → getv l j ≤ getv l 0 := by
  intro j
  induction j using Nat.strong_induction_on with
  | _ j ih =>
    intro hj
    rcases Nat.eq_zero_or_pos j with rfl | hj0
    · exact le_refl _
    · exact (hheap j hj0 hj).trans (ih ((j - 1) / 2) (by omega) (by omega))

/-! ## Multiset bookkeeping for the heap scan -/

theorem prefix_multiset_eq (l₁ l₂ : List Int) (n : Nat) (hperm : l₁.Perm l₂)
    (hdrop : ∀ m, n ≤ m → m < l₁.length → getv l₁ m = getv l₂ m) :
    (↑(l₁.take n) : Multiset Int) = ↑(l₂.take n) := by
  have hlen : l₁.length = l₂.length := hperm.length_eq
  have hdropeq : l₁.drop n = l₂.drop n := drop_eq_of_getv l₁ l₂ n hlen hdrop
  have h1 : (↑(l₁.take n) : Multiset Int) + ↑(l₁.drop n) = ↑l₁ := by
    rw [Multiset.coe_add, List.take_append_drop]
  have h2 : (↑(l₂.take n) : Multiset Int) + ↑(l₂.drop n) = ↑l₂ := by
    rw [Multiset.coe_add, List.take_append_drop]
  have h3 : (↑l₁ : Multiset Int) = ↑l₂ := Multiset.coe_eq_coe.mpr hperm
  rw [← h2, ← hdropeq] at h3
  rw [h3] at h1
  exact add_right_cancel h1

theorem getv_mem_take (l : List Int) (n j : Nat) (hj : j < n) (hl : j < l.length) :
    getv l j ∈ l.take n := by
  rw [getv_eq_getElem _ _ hl]
  apply List.mem_iff_getElem.mpr
  refine ⟨j, by simp [List.length_take]; omega, ?_⟩
  rw [List.getElem_take]

theorem take_set_zero (l : List Int) (n : Nat) (x : Int) (hn : 1 ≤ n) (hl : 0 < l.length) :
    (↑((l.set 0 x).take n) : Multiset Int) = x ::ₘ (↑(l.take n) : Multiset Int).erase (getv l 0) := by
  rcases l with _ | ⟨a, t⟩
  · simp at hl
  · rcases n with _ | m
    · omega
    · have h1 : (a :: t).set 0 x = x :: t := rfl
      have h2 : getv (a :: t) 0 = a := rfl
      rw [h1, h2, List.take_succ_cons, List.take_succ_cons, ← Multiset.cons_coe,
        ← Multiset.cons_coe, Multiset.erase_cons_head]

theorem sub_cons_of_le (M Q : Multiset Int) (x : Int) (h : Q ≤ M) :
    (x ::ₘ M) - Q = x ::ₘ (M - Q) := by
  ext z
  have hc := Multiset.le_iff_count.mp h z
  simp only [Multiset.count_sub, Multiset.count_cons]
  rcases eq_or_ne z x with rfl | hne
  · simp
    omega
  · simp [hne]

theorem isNSmallest_skip (M Q : Multiset Int) (x b : Int)
    (h : IsNSmallest M Q) (hb : ∀ q ∈ Q, q ≤ b) (hxb : b ≤ x) :
    IsNSmallest (x ::ₘ M) Q := by
  refine ⟨h.1.trans (Multiset.le_cons_self M x), ?_⟩
  intro q hq y hy
  rw [sub_cons_of_le M Q x h.1] at hy
  rcases Multiset.mem_cons.mp hy with rfl | hy'
  · exact (hb q hq).trans hxb
  · exact h.2 q hq y hy'

theorem isNSmallest_replace (M Q : Multiset Int) (m x : Int)
    (h : IsNSmallest M Q) (hm : m ∈ Q) (hmax : ∀ q ∈ Q, q ≤ m) (hx : x < m) :
    IsNSmallest (x ::ₘ M) (x ::ₘ Q.erase m) := by
  constructor
  · exact Multiset.cons_le_cons x ((Multiset.erase_le m Q).trans h.1)
  · intro q hq y hy
    have hsub : (x ::ₘ M) - (x ::ₘ Q.erase m) = M - Q.erase m := by
      ext z
      simp only [Multiset.count_sub, Multiset.count_cons]
      rcases eq_or_ne z x with rfl | hne
      · simp
      · simp [hne]
    rw [hsub] at hy
    have hsub2 : M - Q.erase m = m ::ₘ (M - Q) := by
      ext z
      have h1 := Multiset.le_iff_count.mp h.1 z
      have h3 : 0 < Multiset.count m Q := Multiset.count_pos.mpr hm
      simp only [Multiset.count_sub, Multiset.count_cons]
      rcases eq_or_ne z m with rfl | hne
      · rw [Multiset.count_erase_self]
        simp
        omega
      · rw [Multiset.count_erase_of_ne hne]
        simp [hne]
    rw [hsub2] at hy
    rcases Multiset.mem_cons.mp hy with rfl | hy'
    · rcases Multiset.mem_cons.mp hq with rfl | hq'
      · exact le_of_lt hx
      · exact hmax q (Multiset.mem_of_mem_erase hq')
    · rcases Multiset.mem_cons.mp hq with rfl | hq'
      · exact le_of_lt (lt_of_lt_of_le hx (h.2 m hm y hy'))
      · exact h.2 q (Multiset.mem_of_mem_erase hq') y hy'

theorem isNSmallest_sortedL (S Q : List Int) (n : Nat)
    (h : IsNSmallest ↑S ↑Q) (hcard : Q.length = n) :
    (↑((sortedL S).take n) : Multiset Int) = ↑Q := by
  set R := ((↑S : Multiset Int) - ↑Q).toList with hR
  have hRQ : (↑R : Multiset Int) = (↑S : Multiset Int) - ↑Q := Multiset.coe_toList _
  have hSQR : (↑S : Multiset Int) = ↑(Q ++ R) := by
    rw [← Multiset.coe_add, hRQ]
    rw [add_comm]
    exact (tsub_add_cancel_of_le h.1).symm
  have hperm : S.Perm (Q ++ R) := Multiset.coe_eq_coe.mp hSQR
  have happ : sortedL S = sortedL Q ++ sortedL R := by
    rw [sortedL_congr hperm]
    apply sortedL_append
    intro x hx y hy
    refine h.2 x (Multiset.mem_coe.mpr hx) y ?_
    rw [← hRQ]
    exact Multiset.mem_coe.mpr hy
  rw [happ, List.take_left' (by rw [sortedL_length]; exact hcard)]
  exact Multiset.coe_eq_coe.mpr (sortedL_perm Q)

theorem isNSmallest_max_getD (S Q : List Int) (n : Nat) (hn : 1 ≤ n)
    (h : IsNSmallest ↑S ↑Q) (hcard : Q.length = n) (x₀ : Int) (hx₀ : x₀ ∈ Q)
    (hmax : ∀ q ∈ Q, q ≤ x₀) :
    (sortedL S).getD (n - 1) 0 = x₀ := by
  have htake := isNSmallest_sortedL S Q n h hcard
  have hlenS : n ≤ S.length := by
    have := Multiset.card_le_card h.1
    simpa [hcard] using this
  have hlenT : (sortedL S).length = S.length := sortedL_length S
  have hn1T : n - 1 < (sortedL S).length := by omega
  rw [List.getD_eq_getElem _ _ hn1T]
  have hmem : (sortedL S)[n - 1] ∈ (sortedL S).take n := by
    rw [← getv_eq_getElem _ _ hn1T]
    exact getv_mem_take _ _ _ (by omega) (by omega)
  have hmemQ : (sortedL S)[n - 1] ∈ Q := by
    rw [← Multiset.mem_coe, ← htake]
    exact Multiset.mem_coe.mpr hmem
  have hle1 : (sortedL S)[n - 1] ≤ x₀ := hmax _ hmemQ
  have hmemx : x₀ ∈ (sortedL S).take n := by
    rw [← Multiset.mem_coe, htake]
    exact Multiset.mem_coe.mpr hx₀
  obtain ⟨i, hi1, hi2, hgi⟩ := mem_take_imp (sortedL S) n x₀ hmemx
  have hle2 : x₀ ≤ (sortedL S)[n - 1] := by
    rw [← hgi, getv_eq_getElem _ _ hi2]
    rcases eq_or_ne i (n - 1) with rfl | hne
    · exact le_refl _
    · exact (List.pairwise_iff_getElem.mp (sortedL_sorted S)) i (n - 1) hi2 hn1T (by omega)
  exact le_antisymm hle1 hle2

/-! ## Heap scan phase -/

theorem cons_add_shuffle (A B : Multiset Int) (x : Int) :
    A + (B + {x}) = x ::ₘ (A + B) := by
  rw [← add_assoc, add_comm (A + B) {x}, Multiset.singleton_add]

theorem drop_take_snoc (S : List Int) (n i : Nat) (hni : n ≤ i) (hi : i < S.length) :
    (S.drop n).take (i + 1 - n) = (S.drop n).take (i - n) ++ [getv S i] := by
  have h1 : i + 1 - n = (i - n) + 1 := by omega
  rw [h1, List.take_succ]
  congr
  have h2 : i - n < (S.drop n).length := by rw [List.length_drop]; omega
  rw [List.getElem?_eq_getElem h2, List.getElem_drop, getv_eq_getElem _ _ hi]
  have h3 : n + (i - n) = i := by omega
  simp [h3]

theorem heapScanGo_spec (n size : Nat) (S : List Int) (hsize : size = S.length)
    (hn1 : 1 ≤ n) (hns : n ≤ size) :
    ∀ (i : Nat) (l : List Int),
    n ≤ i → i ≤ size →
    l.length = S.length →
    (∀ m, n ≤ m → m < size → getv l m = getv S m) →
    HeapUpTo l n →
    IsNSmallest (↑(S.take n) + ↑((S.drop n).take (i - n))) ↑(l.take n) →
    (heapScanGo n size i l).length = S.length ∧
    (∀ m, n ≤ m → m < size → getv (heapScanGo n size i l) m = getv S m) ∧
    HeapUpTo (heapScanGo n size i l) n ∧
    IsNSmallest ↑S ↑((heapScanGo n size i l).take n) := by
  intro i l
  induction i, l using heapScanGo.induct n size with
  | case1 i l hc hlt ih =>
    intro hni hisize hlen hframe hheap hsmall
    rw [heapScanGo, if_pos hc, if_pos hlt]
    have hl0 : 0 < l.length := by omega
    have hlen3 : (l.set 0 (getv l i)).length = S.length := by
      rw [length_set_eq]; exact hlen
    have hend : n - 1 < (l.set 0 (getv l i)).length := by omega
    have hlen2 : (siftDown (l.set 0 (getv l i)) 0 (n - 1)).length = S.length := by
      rw [siftDown_length]; exact hlen3
    have hx : getv l i = getv S i := hframe i hni hc
    have hframe2 : ∀ m, n ≤ m → m < size →
        getv (siftDown (l.set 0 (getv l i)) 0 (n - 1)) m = getv S m := by
      intro m hm1 hm2
      rw [siftDown_frame _ 0 (n - 1) (by omega) m (by omega),
        getv_set_ne _ _ _ _ (by omega)]
      exact hframe m hm1 hm2
    have hheap2 : HeapUpTo (siftDown (l.set 0 (getv l i)) 0 (n - 1)) n := by
      intro j hj0 hjn
      refine siftDown_heap 0 (l.set 0 (getv l i)) 0 (n - 1) hend (le_refl 0) ?_
        (fun hlt' => absurd hlt' (by omega)) j hj0 (by omega) (by omega)
      intro j' h0 he hs hne
      rw [getv_set_ne _ _ _ _ (by omega), getv_set_ne _ _ _ _ (by omega)]
      exact hheap j' h0 (by omega)
    have hmax : ∀ q ∈ (↑(l.take n) : Multiset Int), q ≤ getv l 0 := by
      intro q hq
      obtain ⟨j, hj1, hj2, rfl⟩ := mem_take_imp l n q (Multiset.mem_coe.mp hq)
      exact heap_root_max l n hheap j hj1
    have hm0mem : getv l 0 ∈ (↑(l.take n) : Multiset Int) :=
      Multiset.mem_coe.mpr (getv_mem_take l n 0 (by omega) hl0)
    have hstep := isNSmallest_replace _ _ _ _ hsmall hm0mem hmax hlt
    have hpfx : (↑((siftDown (l.set 0 (getv l i)) 0 (n - 1)).take n) : Multiset Int) =
        getv l i ::ₘ (↑(l.take n) : Multiset Int).erase (getv l 0) := by
      rw [prefix_multiset_eq _ (l.set 0 (getv l i)) n
        (siftDown_perm _ 0 (n - 1) hend)
        (fun m hm1 hm2 => siftDown_frame _ 0 (n - 1) (by omega) m (by omega))]
      exact take_set_zero l n (getv l i) hn1 hl0
    have hM : (↑(S.take n) : Multiset Int) + ↑((S.drop n).take (i + 1 - n)) =
        getv l i ::ₘ ((↑(S.take n) : Multiset Int) + ↑((S.drop n).take (i - n))) := by
      rw [drop_take_snoc S n i hni (by omega), ← Multiset.coe_add, ← hx]
      have hsing : (↑([getv l i]) : Multiset Int) = {getv l i} := rfl
      rw [hsing, cons_add_shuffle]
    obtain ⟨c1, c2, c3, c4⟩ := ih (by omega) (by omega) hlen2 hframe2 hheap2
      (by rw [hM, hpfx]; exact hstep)
    exact ⟨c1, c2, c3, c4⟩
  | case2 i l hc hnlt ih =>
    intro hni hisize hlen hframe hheap hsmall
    rw [heapScanGo, if_pos hc, if_neg hnlt]
    have hx : getv l i = getv S i := hframe i hni hc
    have hmax : ∀ q ∈ (↑(l.take n) : Multiset Int), q ≤ getv l 0 := by
      intro q hq
      obtain ⟨j, hj1, hj2, rfl⟩ := mem_take_imp l n q (Multiset.mem_coe.mp hq)
      exact heap_root_max l n hheap j hj1
    have hstep := isNSmallest_skip _ _ (getv l i) (getv l 0) hsmall hmax (not_lt.mp hnlt)
    have hM : (↑(S.take n) : Multiset Int) + ↑((S.drop n).take (i + 1 - n)) =
        getv l i ::ₘ ((↑(S.take n) : Multiset Int) + ↑((S.drop n).take (i - n))) := by
      rw [drop_take_snoc S n i hni (by omega), ← Multiset.coe_add, ← hx]
      have hsing : (↑([getv l i]) : Multiset Int) = {getv l i} := rfl
      rw [hsing, cons_add_shuffle]
    obtain ⟨c1, c2, c3, c4⟩ := ih (by omega) (by omega) hlen hframe hheap
      (by rw [hM]; exact hstep)
    exact ⟨c1, c2, c3, c4⟩
  | case3 i l hc =>
    intro hni hisize hlen hframe hheap hsmall
    rw [heapScanGo, if_neg hc]
    have hie : i = size := by omega
    subst hie
    have hdt : (S.drop n).take (i - n) = S.drop n := by
      have h1 : i - n = (S.drop n).length := by rw [List.length_drop]; omega
      rw [h1, List.take_length]
    rw [hdt, Multiset.coe_add, List.take_append_drop] at hsmall
    exact ⟨hlen, hframe, hheap, hsmall⟩

/-! ## Heap algorithm: top-level correctness -/

theorem heapRun_spec (S : List Int) (n : Nat) (hn1 : 1 ≤ n) (hns : n ≤ S.length) :
    (heapRun S n).length = S.length ∧
    HeapUpTo (heapRun S n) n ∧
    IsNSmallest ↑S ↑((heapRun S n).take n) ∧
    (∀ m, n ≤ m → m < S.length → getv (heapRun S n) m = getv S m) := by
  obtain ⟨b1, b2, b3, b4⟩ := buildHeapGo_spec n ((n - 2) / 2) S (by omega)
    (fun j h0 he hs => absurd hs (by omega))
  have hheap0 : HeapUpTo (buildHeapGo n ((n - 2) / 2) S) n :=
    fun j hj0 hjn => b4 j hj0 (by omega)
  have hframe0 : ∀ m, n ≤ m → m < S.length →
      getv (buildHeapGo n ((n - 2) / 2) S) m = getv S m :=
    fun m hm1 _ => b3 m (by omega)
  have hpfx0 : (↑((buildHeapGo n ((n - 2) / 2) S).take n) : Multiset Int) = ↑(S.take n) :=
    prefix_multiset_eq _ S n b2 (fun m hm1 _ => b3 m (by omega))
  have hsmall0 : IsNSmallest
      (↑(S.take n) + ↑((S.drop n).take (n - n)))
      ↑((buildHeapGo n ((n - 2) / 2) S).take n) := by
    have hz : n - n = 0 := by omega
    rw [hz, List.take_zero]
    have hz2 : (↑([] : List Int) : Multiset Int) = 0 := rfl
    rw [hz2, add_zero]
    refine ⟨le_of_eq hpfx0, ?_⟩
    intro x hx y hy
    rw [hpfx0, tsub_self] at hy
    exact absurd hy (Multiset.not_mem_zero y)
  have hrun : heapRun S n = heapScanGo n S.length n (buildHeapGo n ((n - 2) / 2) S) := rfl
  rw [hrun]
  obtain ⟨c1, c2, c3, c4⟩ := heapScanGo_spec n S.length S rfl hn1 hns n
    (buildHeapGo n ((n - 2) / 2) S) (le_refl n) hns b1 hframe0 hheap0 hsmall0
  exact ⟨c1, c3, c4, c2⟩

theorem heapRun_correct (S : List Int) (n : Nat) (hn1 : 1 ≤ n) (hns : n ≤ S.length) :
    getv (heapRun S n) 0 = (sortedL S).getD (n - 1) 0 ∧
    (↑((heapRun S n).take n) : Multiset Int) = ↑((sortedL S).take n) ∧
    (∀ q ∈ (sortedL S).take n, q ≤ getv (heapRun S n) 0) ∧
    getv (heapRun S n) 0 ∈ (sortedL S).take n := by
  obtain ⟨r1, r2, r3, r4⟩ := heapRun_spec S n hn1 hns
  have hcard : ((heapRun S n).take n).length = n := by
    rw [List.length_take]
    omega
  have hx0Q : getv (heapRun S n) 0 ∈ (heapRun S n).take n :=
    getv_mem_take _ n 0 (by omega) (by omega)
  have hmaxQ : ∀ q ∈ (heapRun S n).take n, q ≤ getv (heapRun S n) 0 := by
    intro q hq
    obtain ⟨j, hj1, hj2, rfl⟩ := mem_take_imp _ n q hq
    exact heap_root_max _ n r2 j hj1
  have hval := isNSmallest_max_getD S _ n hn1 r3 hcard (getv (heapRun S n) 0)
    hx0Q hmaxQ
  have htake := isNSmallest_sortedL S _ n r3 hcard
  refine ⟨hval.symm, htake.symm, ?_, ?_⟩
  · intro q hq
    have hq2 := Multiset.mem_coe.mpr hq
    rw [htake] at hq2
    exact hmaxQ q (Multiset.mem_coe.mp hq2)
  · have hx2 := Multiset.mem_coe.mpr hx0Q
    rw [← htake] at hx2
    exact Multiset.mem_coe.mp hx2

/-! ## Shared top-level helper -/

theorem both_correct (S : List Int) (n : Int) (h1 : 1 ≤ n) (h2 : n ≤ (S.length : Int)) :
    sort_nth_smallest_quickselect S n = (sortedL S).getD (n - 1).toNat 0 ∧
    sort_nth_smallest_heap S n = (sortedL S).getD (n - 1).toNat 0 := by
  have hguard : ¬(n ≤ 0 ∨ (S.length : Int) < n) := by omega
  constructor
  · rw [sort_nth_smallest_quickselect, if_neg hguard]
    obtain ⟨l', heq, hperm, hlen, htake⟩ := quickselectRun_spec S n h1 h2
    rw [heq]
    rfl
  · rw [sort_nth_smallest_heap, if_neg hguard]
    have hv := (heapRun_correct S n.toNat (by omega) (by omega)).1
    rw [hv]
    congr 1
    omega

/-! ## The claims -/

/-- Claim C1: for every finite sequence `S` of integers and every `n` with
`1 ≤ n ≤ |S|`, both `sort_nth_smallest_quickselect(S, n)` and
`sort_nth_smallest_heap(S, n)` return `sorted(S)[n-1]`, the n-th smallest
element of `S` (1-based). -/
theorem C1_both_return_nth_smallest (S : List Int) (n : Int)
    (h1 : 1 ≤ n) (h2 : n ≤ (S.length : Int)) :
    sort_nth_smallest_quickselect S n = (sortedL S).getD (n - 1).toNat 0 ∧
    sort_nth_smallest_heap S n = (sortedL S).getD (n - 1).toNat 0 :=
  both_correct S n h1 h2

theorem C1_witness :
    ((1 : Int) ≤ 2 ∧ (2 : Int) ≤ (([3, 1, 2] : List Int).length : Int)) ∧
    (sort_nth_smallest_quickselect [3, 1, 2] 2 = (sortedL [3, 1, 2]).getD ((2 - 1 : Int)).toNat 0 ∧
     sort_nth_smallest_heap [3, 1, 2] 2 = (sortedL [3, 1, 2]).getD ((2 - 1 : Int)).toNat 0) :=
  ⟨⟨by decide, by decide⟩, C1_both_return_nth_smallest [3, 1, 2] 2 (by decide) (by decide)⟩

/-- Claim C2: for every sequence `S` and every `n` with `1 ≤ n ≤ |S|`,
`sort_nth_smallest_quickselect(S, n)` equals `sort_nth_smallest_heap(S, n)`. -/
theorem C2_equivalence (S : List Int) (n : Int)
    (h1 : 1 ≤ n) (h2 : n ≤ (S.length : Int)) :
    sort_nth_smallest_quickselect S n = sort_nth_smallest_heap S n := by
  obtain ⟨hq, hh⟩ := both_correct S n h1 h2
  rw [hq, hh]

theorem C2_witness :
    ((1 : Int) ≤ 3 ∧ (3 : Int) ≤ (([5, 2, 2, 1] : List Int).length : Int)) ∧
    sort_nth_smallest_quickselect [5, 2, 2, 1] 3 = sort_nth_smallest_heap [5, 2, 2, 1] 3 :=
  ⟨⟨by decide, by decide⟩, C2_equivalence [5, 2, 2, 1] 3 (by decide) (by decide)⟩

/-- Claim C3: for every sequence `S` and valid `n`, after either algorithm
runs on its working copy of `S`, the multiset of the first `n` positions of
the mutated copy equals the multiset of the `n` smallest values of `S`. -/
theorem C3_prefix_property (S : List Int) (n : Int)
    (h1 : 1 ≤ n) (h2 : n ≤ (S.length : Int)) :
    (∃ l' r, quickselectRun S n = some (l', r) ∧
      (↑(l'.take n.toNat) : Multiset Int) = ↑((sortedL S).take n.toNat)) ∧
    (↑((heapRun S n.toNat).take n.toNat) : Multiset Int) = ↑((sortedL S).take n.toNat) := by
  constructor
  · obtain ⟨l', heq, hperm, hlen, htake⟩ := quickselectRun_spec S n h1 h2
    refine ⟨l', _, heq, ?_⟩
    have hidx : (n - 1).toNat + 1 = n.toNat := by omega
    rw [hidx] at htake
    exact htake
  · exact (heapRun_correct S n.toNat (by omega) (by omega)).2.1

theorem C3_witness :
    ((1 : Int) ≤ 1 ∧ (1 : Int) ≤ (([2, 1] : List Int).length : Int)) ∧
    ((∃ l' r, quickselectRun [2, 1] 1 = some (l', r) ∧
      (↑(l'.take (1 : Int).toNat) : Multiset Int) = ↑((sortedL [2, 1]).take (1 : Int).toNat)) ∧
    (↑((heapRun [2, 1] (1 : Int).toNat).take (1 : Int).toNat) : Multiset Int) =
      ↑((sortedL [2, 1]).take (1 : Int).toNat)) :=
  ⟨⟨by decide, by decide⟩, C3_prefix_property [2, 1] 1 (by decide) (by decide)⟩

/-- Claim C4: for every sequence `S` and every integer `n` with `n ≤ 0` or
`n > |S|`, both algorithms return the invalid-result sentinel `-1`; the empty
input is covered since every `n` then fails the range check. -/
theorem C4_invalid_rank (S : List Int) (n : Int)
    (h : n ≤ 0 ∨ (S.length : Int) < n) :
    sort_nth_smallest_quickselect S n = -1 ∧ sort_nth_smallest_heap S n = -1 := by
  constructor
  · rw [sort_nth_smallest_quickselect, if_pos h]
  · rw [sort_nth_smallest_heap, if_pos h]

theorem C4_witness :
    ((1 : Int) ≤ 0 ∨ ((([] : List Int).length : Int) < 1)) ∧
    (sort_nth_smallest_quickselect [] 1 = -1 ∧ sort_nth_smallest_heap [] 1 = -1) :=
  ⟨by decide, C4_invalid_rank [] 1 (by decide)⟩

/-- Claim C5: for every sequence `S` and valid `n`, after
`sort_nth_smallest_heap(S, n)` runs, position 0 of the mutated working copy
holds the returned result, and that value is the maximum of the n smallest
elements of `S`. -/
theorem C5_heap_root (S : List Int) (n : Int)
    (h1 : 1 ≤ n) (h2 : n ≤ (S.length : Int)) :
    getv (heapRun S n.toNat) 0 = sort_nth_smallest_heap S n ∧
    sort_nth_smallest_heap S n ∈ (sortedL S).take n.toNat ∧
    (∀ q ∈ (sortedL S).take n.toNat, q ≤ sort_nth_smallest_heap S n) := by
  have hguard : ¬(n ≤ 0 ∨ (S.length : Int) < n) := by omega
  have hres : sort_nth_smallest_heap S n = getv (heapRun S n.toNat) 0 := by
    rw [sort_nth_smallest_heap, if_neg hguard]
  obtain ⟨e1, e2, e3, e4⟩ := heapRun_correct S n.toNat (by omega) (by omega)
  rw [hres]
  exact ⟨rfl, e4, e3⟩

theorem C5_witness :
    ((1 : Int) ≤ 1 ∧ (1 : Int) ≤ (([4, 7] : List Int).length : Int)) ∧
    (getv (heapRun [4, 7] (1 : Int).toNat) 0 = sort_nth_smallest_heap [4, 7] 1 ∧
     sort_nth_smallest_heap [4, 7] 1 ∈ (sortedL [4, 7]).take (1 : Int).toNat ∧
     (∀ q ∈ (sortedL [4, 7]).take (1 : Int).toNat, q ≤ sort_nth_smallest_heap [4, 7] 1)) :=
  ⟨⟨by decide, by decide⟩, C5_heap_root [4, 7] 1 (by decide) (by decide)⟩

/-- Claim C6: on a segment `[low, high]` with `low ≤ high`, partition uses the
last element as pivot and returns `p` in `[low, high]` with the pivot value at
`p`, positions `[low, p)` holding values `≤` the pivot, positions `(p, high]`
holding values `>` the pivot (ties go left via the `≤` comparison), and the
segment's multiset of values unchanged. -/
theorem C6_partition_contract (l : List Int) (low high : Nat)
    (hlh : low ≤ high) (hhl : high < l.length) :
    low ≤ (partition l low high).2 ∧ (partition l low high).2 ≤ high ∧
    getv (partition l low high).1 (partition l low high).2 = getv l high ∧
    (∀ m, low ≤ m → m < (partition l low high).2 →
      getv (partition l low high).1 m ≤
        getv (partition l low high).1 (partition l low high).2) ∧
    (∀ m, (partition l low high).2 < m → m ≤ high →
      getv (partition l low high).1 (partition l low high).2 <
        getv (partition l low high).1 m) ∧
    (seg (partition l low high).1 low high).Perm (seg l low high) := by
  obtain ⟨p1, p2, p3, p4, p5, p6, p7, p8⟩ := partition_spec l low high hlh hhl
  exact ⟨p3, p4, p5, p6, p7, seg_perm_of_frame _ l low high p1 hhl hlh p2 p8⟩

theorem C6_witness :
    ((0 : Nat) ≤ 2 ∧ 2 < ([2, 1, 3] : List Int).length) ∧
    (0 ≤ (partition [2, 1, 3] 0 2).2 ∧ (partition [2, 1, 3] 0 2).2 ≤ 2 ∧
    getv (partition [2, 1, 3] 0 2).1 (partition [2, 1, 3] 0 2).2 = getv [2, 1, 3] 2 ∧
    (∀ m, 0 ≤ m → m < (partition [2, 1, 3] 0 2).2 →
      getv (partition [2, 1, 3] 0 2).1 m ≤
        getv (partition [2, 1, 3] 0 2).1 (partition [2, 1, 3] 0 2).2) ∧
    (∀ m, (partition [2, 1, 3] 0 2).2 < m → m ≤ 2 →
      getv (partition [2, 1, 3] 0 2).1 (partition [2, 1, 3] 0 2).2 <
        getv (partition [2, 1, 3] 0 2).1 m) ∧
    (seg (partition [2, 1, 3] 0 2).1 0 2).Perm (seg [2, 1, 3] 0 2)) :=
  ⟨⟨by decide, by decide⟩, C6_partition_contract [2, 1, 3] 0 2 (by decide) (by decide)⟩

/-- Claim C7: for every sequence `S` and valid `n`, the quickselect loop
terminates within at most `|S|` partition steps: run with fuel `|S|` (one unit
per partition call) the loop returns a value instead of exhausting its fuel. -/
theorem C7_termination (S : List Int) (n : Int)
    (h1 : 1 ≤ n) (h2 : n ≤ (S.length : Int)) :
    (quickselectRun S n).isSome = true := by
  obtain ⟨l', heq, _⟩ := quickselectRun_spec S n h1 h2
  rw [heq]
  rfl

theorem C7_witness :
    ((1 : Int) ≤ 1 ∧ (1 : Int) ≤ (([5] : List Int).length : Int)) ∧
    (quickselectRun [5] 1).isSome = true :=
  ⟨⟨by decide, by decide⟩, C7_termination [5] 1 (by decide) (by decide)⟩

/-- Claim C8: the invalid-input sentinel `-1` is not disjoint from the domain
of valid answers: there are a sequence `S` and a valid rank `n` for which both
algorithms return `-1` as the correct n-th smallest value, indistinguishable
from the invalid-rank failure. -/
theorem C8_sentinel_collision :
    ∃ (S : List Int) (n : Int), 1 ≤ n ∧ n ≤ (S.length : Int) ∧
      sort_nth_smallest_quickselect S n = -1 ∧ sort_nth_smallest_heap S n = -1 ∧
      (sortedL S).getD (n - 1).toNat 0 = -1 :=
  ⟨[-1], 1, by decide, by decide,
    (both_correct [-1] 1 (by decide) (by decide)).1.trans (by decide),
    (both_correct [-1] 1 (by decide) (by decide)).2.trans (by decide),
    by decide⟩
